import Mathlib

/-!
Verification development for the Headwind inline-CSS compiler plugin.

The TypeScript source is shallowly embedded: strings become `List Char`
(one entry per Unicode code point, matching the JS spread `[...data]`),
JS `Map`/`Set` become insertion-ordered association lists, unsigned 32-bit
wraparound arithmetic becomes `% 4294967296` on `Nat`, and the recursive
`parse` function (which can diverge on malformed bracket input) is given
an explicit fuel parameter where `none` models non-termination.
-/

/-! JS string primitives, modelled on `List Char`. -/

/-- Whitespace set trimmed by JS `String.prototype.trim`
(ECMAScript WhiteSpace and LineTerminator code points). -/
def isWSChar (c : Char) : Bool :=
  c.toNat ∈ [9, 10, 11, 12, 13, 32, 160, 5760, 8192, 8193, 8194, 8195, 8196,
    8197, 8198, 8199, 8200, 8201, 8202, 8232, 8233, 8239, 8287, 12288, 65279]

/-- JS `text.trim()`: drop leading and trailing whitespace. -/
def trimJS (l : List Char) : List Char :=
  ((l.dropWhile isWSChar).reverse.dropWhile isWSChar).reverse

/-- JS `text.split(sep)` for a single-character separator: split on every
occurrence, keeping empty pieces; the result is never empty. -/
def splitJS (sep : Char) : List Char → List (List Char)
  | [] => [[]]
  | c :: rest =>
    match splitJS sep rest with
    | [] => [[]]
    | piece :: pieces =>
      if c = sep then [] :: piece :: pieces else (c :: piece) :: pieces

/-- JS `Array.prototype.join(sep)` on an array of strings. -/
def joinJS (sep : List Char) : List (List Char) → List Char
  | [] => []
  | [x] => x
  | x :: xs => x ++ sep ++ joinJS sep xs

/-- JS `text.search(/[;\x7b]/)`: index of the first `;` or `{`. -/
def searchTerm : List Char → Option Nat
  | [] => none
  | c :: rest =>
    if c = ';' ∨ c = '\x7b' then some 0 else (searchTerm rest).map (· + 1)

/-- JS `text.indexOf(ch)` for a single character, as an `Option`
(`none` models the sentinel `-1`). -/
def indexOfChar (ch : Char) : List Char → Option Nat
  | [] => none
  | c :: rest => if c = ch then some 0 else (indexOfChar ch rest).map (· + 1)

/-- Index of the first occurrence of the string `pat` in `s`
(JS `String.prototype.indexOf` with a string argument; the empty pattern
matches at 0). -/
def firstMatchIdx (pat : List Char) : List Char → Option Nat
  | [] => if pat.isPrefixOf ([] : List Char) then some 0 else none
  | c :: rest =>
    if pat.isPrefixOf (c :: rest) then some 0
    else (firstMatchIdx pat rest).map (· + 1)

/-- ECMAScript GetSubstitution for a string pattern (no capture groups):
expand `$$`, `$&`, `$` followed by a backtick, and `$` followed by an
apostrophe inside the replacement string; anything else is literal. -/
def substDollar (matched before after : List Char) : List Char → List Char
  | [] => []
  | c :: rest =>
    if c = '$' then
      match rest with
      | [] => ['$']
      | d :: rest2 =>
        if d = '$' then '$' :: substDollar matched before after rest2
        else if d = '&' then matched ++ substDollar matched before after rest2
        else if d = '\x60' then before ++ substDollar matched before after rest2
        else if d = '\x27' then after ++ substDollar matched before after rest2
        else '$' :: d :: substDollar matched before after rest2
    else c :: substDollar matched before after rest

/-- JS `s.replace(pat, rep)` with string arguments: replace the first
occurrence of `pat`, expanding `$`-escapes in `rep`; if `pat` does not
occur, return `s` unchanged. -/
def replaceFirstJS (s pat rep : List Char) : List Char :=
  match firstMatchIdx pat s with
  | none => s
  | some i =>
    s.take i ++ substDollar pat (s.take i) (s.drop (i + pat.length)) rep
      ++ s.drop (i + pat.length)

/-- JS `char.charCodeAt(0)` applied to a single-code-point string: the code
point itself below U+10000, otherwise the leading (high) surrogate of its
UTF-16 encoding. -/
def utf16First (c : Char) : Nat :=
  if c.toNat < 65536 then c.toNat else 55296 + (c.toNat - 65536) / 1024

/-! The hasher (`hash` in the source). -/

/-- The 64-entry alphabet literal from the source (note the digit `0`
appears twice, at indices 0 and 10). -/
def alphabetL : List Char :=
  "01234567890abcdefghijklmnopqrstuvwxyzABCDEFGHIJKLMNOPQRSTUVWXYZ-".toList

/-- The five 6-bit mask constants from the source. -/
def masks : List Nat :=
  [0b111111, 0b111111000000, 0b111111000000000000,
    0b111111000000000000000000, 0b111111000000000000000000000000]

/-- The source `hash` function: fold
`hash * 311 + char.charCodeAt(0) >>> 0` from seed 313 over the code points
of the input, then map each mask to an alphabet symbol. -/
def hashJS (data : List Char) : List Char :=
  let hashInt := data.foldl (fun h c => (h * 311 + utf16First c) % 4294967296) 313
  (masks.enum.map (fun im => alphabetL.getD ((hashInt &&& im.2) >>> (6 * im.1)) '?'))

/-- Reference hash algorithm exactly as the claim states it: the per-step
addend is the code point of the character, and the five 6-bit fields are
extracted at bit offsets 0, 6, 12, 18, 24. -/
def hashRef (data : List Char) : List Char :=
  let acc := data.foldl (fun h c => (h * 311 + c.toNat) % 4294967296) 313
  ([0, 6, 12, 18, 24].map (fun off => alphabetL.getD ((acc >>> off) &&& 63) '?'))

/-- Reference hash algorithm amended to the source behaviour: the per-step
addend is the first UTF-16 code unit of the character (equal to the code
point for characters below U+10000). -/
def hashRefAmended (data : List Char) : List Char :=
  let acc := data.foldl (fun h c => (h * 311 + utf16First c) % 4294967296) 313
  ([0, 6, 12, 18, 24].map (fun off => alphabetL.getD ((acc >>> off) &&& 63) '?'))

/-! The parsed-CSS data model. -/

/-- A parsed node at runtime: either the array produced by
`line.split(':').map(trim)` (a declaration; the source casts it to a pair
but its true length can differ from 2), or a nested rule
`[selectorFragment, parsedBody]`. -/
inductive Node where
  | decl (parts : List (List Char))
  | nested (sel : List Char) (body : List Node)

mutual
/-- Boolean equality on parsed nodes. -/
def nodeBEq : Node → Node → Bool
  | .decl p, .decl q => p == q
  | .nested s b, .nested t c => s == t && nodesBEq b c
  | _, _ => false
/-- Boolean equality on lists of parsed nodes. -/
def nodesBEq : List Node → List Node → Bool
  | [], [] => true
  | x :: xs, y :: ys => nodeBEq x y && nodesBEq xs ys
  | _, _ => false
end

mutual
theorem nodeBEq_iff : (a b : Node) → (nodeBEq a b = true ↔ a = b)
  | .decl p, .decl q => by simp [nodeBEq]
  | .decl p, .nested t c => by simp [nodeBEq]
  | .nested s b, .decl q => by simp [nodeBEq]
  | .nested s b, .nested t c => by simp [nodeBEq, nodesBEq_iff b c]
theorem nodesBEq_iff : (xs ys : List Node) → (nodesBEq xs ys = true ↔ xs = ys)
  | [], [] => by simp [nodesBEq]
  | [], _ :: _ => by simp [nodesBEq]
  | _ :: _, [] => by simp [nodesBEq]
  | x :: xs, y :: ys => by
      simp [nodesBEq, nodeBEq_iff x y, nodesBEq_iff xs ys]
end

instance : DecidableEq Node :=
  fun a b => decidable_of_iff (nodeBEq a b = true) (nodeBEq_iff a b)

mutual
/-- JS `Array.prototype.toString` (= `join(',')`) of a parsed node, used
when a nested node is coerced to a string inside `join`. -/
def nodeToStr : Node → List Char
  | .decl parts => joinJS [','] parts
  | .nested s body => s ++ ',' :: listToStr body
/-- JS `Array.prototype.toString` of a list of parsed nodes. -/
def listToStr : List Node → List Char
  | [] => []
  | [n] => nodeToStr n
  | n :: ns => nodeToStr n ++ ',' :: listToStr ns
end

/-- JS `tuple.join(': ')` on a parsed node. -/
def tupleJoin : Node → List Char
  | .decl parts => joinJS ": ".toList parts
  | .nested s body => s ++ ": ".toList ++ listToStr body

/-- The source `stringifyProperties`:
`properties.map(tuple => tuple.join(': ')).join('; ')`. -/
def stringifyProperties (properties : List Node) : List Char :=
  joinJS "; ".toList (properties.map tupleJoin)

/-- JS `tuple[0]`: first element of a declaration array, or the selector
fragment of a nested rule. -/
def declHead : Node → List Char
  | .decl parts => parts.getD 0 []
  | .nested s _ => s

/-- Body of a nested rule (`tuple[1]` when it is an array). -/
def nodeBody : Node → List Node
  | .decl _ => []
  | .nested _ b => b

/-- The source `isNested`: `Array.isArray(tuple[1])`. -/
def isNestedB : Node → Bool
  | .decl _ => false
  | .nested _ _ => true

/-- The source `isSimple`: `isNested(tuple) === false`. -/
def isSimpleB (n : Node) : Bool := !(isNestedB n)

/-- The source `isCustomProperty`: `property[0].startsWith('--')`. -/
def isCustomB (n : Node) : Bool := "--".toList.isPrefixOf (declHead n)

/-- The source `isAtRule`: `tuple[0].startsWith('@')`. -/
def isAtB (n : Node) : Bool := "@".toList.isPrefixOf (declHead n)

/-- The source `isPseudoClassRule`: `tuple[0].startsWith(':')`. -/
def isPseudoB (n : Node) : Bool := ":".toList.isPrefixOf (declHead n)

/-- The placeholder constant that stands where the selector list will go. -/
def placeholderL : List Char :=
  "ZTc5OGY2MDUtMTFkNy00ODJmLWI4NmMtZjExYzA5MzdiZjc5".toList

/-- Result of compiling one parsed CSS tree. -/
structure CompiledCSS where
  classes : List (List Char)
  customProperties : List Node
  rules : List (List Char × List Char)
deriving DecidableEq

/-- The combining step of the source `reduce` over compiled pieces. -/
def combineCompiled (a b : CompiledCSS) : CompiledCSS :=
  ⟨a.classes ++ b.classes, a.customProperties ++ b.customProperties,
    a.rules ++ b.rules⟩

/-- The source `compile`: partition into simple declarations, pseudo-class
rules and at-rules, build one placeholder-wrapped rule body and one hashed
class per group, and concatenate. -/
def compile (properties : List Node) : CompiledCSS :=
  let simpleProperties := properties.filter isSimpleB
  let nestedRules := properties.filter isNestedB
  let atQueryRules := nestedRules.filter isAtB
  let pseudoClassRules := nestedRules.filter isPseudoB
  let simpleRule : CompiledCSS :=
    if simpleProperties.length > 0 then
      let customProperties := simpleProperties.filter isCustomB
      let normalProperties := simpleProperties.filter (fun n => !(isCustomB n))
      let ruleBody := placeholderL ++ " \x7b ".toList
        ++ stringifyProperties normalProperties ++ " \x7d".toList
      let hwClass := "hw_".toList ++ hashJS ruleBody
      ⟨[hwClass], customProperties, [(ruleBody, '.' :: hwClass)]⟩
    else ⟨[], [], []⟩
  let pseudoRules := pseudoClassRules.map (fun n =>
    let ruleBody := placeholderL ++ " \x7b ".toList
      ++ stringifyProperties (nodeBody n) ++ " \x7d".toList
    let hwClass := "hw_".toList ++ hashJS (declHead n ++ hashJS ruleBody)
    (⟨[hwClass], [], [(ruleBody, '.' :: hwClass ++ declHead n)]⟩ : CompiledCSS))
  let atRules := atQueryRules.map (fun n =>
    let ruleBody := declHead n ++ " \x7b ".toList ++ placeholderL
      ++ " \x7b ".toList ++ stringifyProperties (nodeBody n) ++ " \x7d \x7d".toList
    let hwClass := "hw_".toList ++ hashJS (declHead n ++ hashJS ruleBody)
    (⟨[hwClass], [], [(ruleBody, '.' :: hwClass)]⟩ : CompiledCSS))
  (pseudoRules ++ atRules).foldl combineCompiled simpleRule

/-! The parser. -/

/-- The source `line.split(':').map(trim)`. -/
def splitColonTrim (l : List Char) : List (List Char) :=
  (splitJS ':' l).map trimJS

/-- The source `parse`, with explicit fuel: `none` models non-termination
of the JS recursion (the `{`-branch with no closing `\x7d` recurses on the
whole input unchanged, which in JS overflows the call stack). JS
`slice(a, b)` is `(take b).drop a`, and `slice(a, -1)` is
`(take (length - 1)).drop a`. -/
def parseJS : Nat → List Char → List Node → Option (List Node)
  | 0, _, _ => none
  | fuel + 1, text, result =>
    if trimJS text = [] then some result
    else
      match searchTerm text with
      | none => some (result ++ [Node.decl (splitColonTrim text)])
      | some i =>
        if text.getD i ' ' = ';' then
          parseJS fuel (text.drop (i + 1))
            (result ++ [Node.decl (splitColonTrim (text.take i))])
        else
          let ruleBody := match indexOfChar '\x7d' text with
            | some j => (text.take j).drop (i + 1)
            | none => (text.take (text.length - 1)).drop (i + 1)
          match parseJS fuel ruleBody [] with
          | none => none
          | some props =>
            let remaining := match indexOfChar '\x7d' text with
              | some j => text.drop (j + 1)
              | none => text
            parseJS fuel remaining
              (result ++ [Node.nested (trimJS (text.take i)) props])

/-! The stylesheet accumulator. -/

/-- The shared stylesheet: a JS `Map` from rule bodies to `Set`s of
selectors, modelled as an insertion-ordered association list with
insertion-ordered duplicate-free selector lists. -/
abbrev Sheet := List (List Char × List (List Char))

/-- The source `addRule`: insert a new entry with a singleton selector set,
or add the selector to the existing entry (a no-op if already present). -/
def addRule (sheet : Sheet) (ruleBody selector : List Char) : Sheet :=
  match sheet.find? (fun e => e.1 == ruleBody) with
  | none => sheet ++ [(ruleBody, [selector])]
  | some _ => sheet.map (fun e =>
      if e.1 = ruleBody then
        (e.1, if selector ∈ e.2 then e.2 else e.2 ++ [selector])
      else e)

/-- The source `stringifyStylesheet`: for each entry, join its selectors
with a comma and substitute for the first placeholder occurrence in the
rule body, then join all rules with newlines. -/
def stringifyStylesheet (sheet : Sheet) : List Char :=
  joinJS ['\n']
    (sheet.map (fun e => replaceFirstJS e.1 placeholderL (joinJS ", ".toList e.2)))

/-- One style string processed the way the hook feeds the accumulator:
parse, compile, and merge every produced rule. When the parse diverges
(fuel exhausted / malformed brackets) nothing reaches the accumulator. -/
def processStyle (fuel : Nat) (sheet : Sheet) (style : List Char) : Sheet :=
  match parseJS fuel style [] with
  | none => sheet
  | some p => ((compile p).rules).foldl (fun sh r => addRule sh r.1 r.2) sheet

/-! The per-node hook. -/

/-- A style attribute value at the hook boundary: a string, or a non-string
value abstracted by its `typeof` tag. An absent attribute is `none`. -/
inductive StyleAttr where
  | strVal (s : List Char)
  | nonStr (typeName : List Char)
deriving DecidableEq

/-- A UI node as the hook sees it: element type, `class` and `style`
attributes, and all remaining props. -/
structure VNodeM where
  vtype : List Char
  cls : Option (List Char)
  style : Option StyleAttr
  rest : List (List Char × List Char)
deriving DecidableEq

/-- The source `applyClass`: append to a truthy (non-empty) class string,
otherwise set it. -/
def applyClass (v : VNodeM) (hwClass : List Char) : VNodeM :=
  match v.cls with
  | some c => if c ≠ [] then { v with cls := some (c ++ ' ' :: hwClass) }
              else { v with cls := some hwClass }
  | none => { v with cls := some hwClass }

/-- The `console.warn` message of the hook for a non-string style value. -/
def warnMsg (typeName vtype : List Char) : List Char :=
  "Headwind: the compiler only works with strings, but style of the type \x27".toList
    ++ typeName ++ "\x27 on element \x27".toList ++ vtype ++ "\x27".toList

/-- The source `hook`: pass nodes without a string style attribute through
unchanged (warning on non-string values); otherwise parse and compile the
style text, apply the classes, replace the style attribute with the custom
properties (or remove it), and merge the rules into the stylesheet. The
result also carries the emitted warnings; `none` models a crash of the
parse recursion. -/
def hookJS (fuel : Nat) (sheet : Sheet) (v : VNodeM) :
    Option (Sheet × VNodeM × List (List Char)) :=
  match v.style with
  | none => some (sheet, v, [])
  | some (.nonStr t) => some (sheet, v, [warnMsg t v.vtype])
  | some (.strVal s) =>
    match parseJS fuel s [] with
    | none => none
    | some p =>
      let c := compile p
      let v1 := c.classes.foldl applyClass v
      let v2 := if c.customProperties.length > 0 then
          { v1 with style := some (.strVal (stringifyProperties c.customProperties)) }
        else { v1 with style := none }
      some (c.rules.foldl (fun sh r => addRule sh r.1 r.2) sheet, v2, [])

/-! Small auxiliary lemmas about the string primitives. -/

theorem mem_dropWhile {p : Char → Bool} {x : Char} {l : List Char}
    (hm : x ∈ l) (hw : p x = false) : x ∈ l.dropWhile p := by
  induction l with
  | nil => cases hm
  | cons c rest ih =>
    by_cases hc : p c
    · rw [List.dropWhile_cons_of_pos hc]
      rcases List.mem_cons.mp hm with rfl | hm2
      · exact absurd hc (by simp [hw])
      · exact ih hm2
    · rw [List.dropWhile_cons_of_neg hc]
      exact hm

theorem mem_trimJS {x : Char} {l : List Char} (hm : x ∈ l)
    (hw : isWSChar x = false) : x ∈ trimJS l := by
  unfold trimJS
  have h1 : x ∈ l.dropWhile isWSChar := mem_dropWhile hm hw
  have h2 : x ∈ (l.dropWhile isWSChar).reverse := List.mem_reverse.mpr h1
  have h3 := mem_dropWhile h2 hw
  exact List.mem_reverse.mpr h3

theorem trimJS_ne_nil {x : Char} {l : List Char} (hm : x ∈ l)
    (hw : isWSChar x = false) : trimJS l ≠ [] :=
  List.ne_nil_of_mem (mem_trimJS hm hw)

theorem searchTerm_eq_none {l : List Char}
    (h : ∀ x ∈ l, ¬(x = ';' ∨ x = '\x7b')) : searchTerm l = none := by
  induction l with
  | nil => rfl
  | cons c rest ih =>
    rw [searchTerm, if_neg (h c (List.mem_cons_self c rest)),
      ih (fun x hx => h x (List.mem_cons_of_mem c hx))]
    rfl

theorem splitJS_ne_nil (sep : Char) (l : List Char) : splitJS sep l ≠ [] := by
  induction l with
  | nil => simp [splitJS]
  | cons c rest ih =>
    cases h : splitJS sep rest with
    | nil => exact absurd h ih
    | cons p ps =>
      rw [splitJS, h]
      by_cases hc : c = sep <;> simp [hc]

theorem splitJS_no_sep {sep : Char} {l : List Char} (h : sep ∉ l) :
    splitJS sep l = [l] := by
  induction l with
  | nil => rfl
  | cons c rest ih =>
    have hc : ¬(c = sep) := fun e => h (e ▸ List.mem_cons_self c rest)
    have hr : sep ∉ rest := fun m => h (List.mem_cons_of_mem c m)
    rw [splitJS, ih hr]
    simp [hc]

theorem splitJS_append {sep : Char} {a : List Char} (r : List Char)
    (h : sep ∉ a) : splitJS sep (a ++ sep :: r) = a :: splitJS sep r := by
  induction a with
  | nil =>
    cases hr : splitJS sep r with
    | nil => exact absurd hr (splitJS_ne_nil sep r)
    | cons p ps => simp [splitJS, hr]
  | cons c a2 ih =>
    have hc : ¬(c = sep) := fun e => h (e ▸ List.mem_cons_self c a2)
    have ha : sep ∉ a2 := fun m => h (List.mem_cons_of_mem c m)
    have := ih ha
    cases hr : splitJS sep (a2 ++ sep :: r) with
    | nil => exact absurd hr (splitJS_ne_nil sep _)
    | cons p ps =>
      rw [hr] at this
      rw [List.cons_append, splitJS, hr]
      simp only [if_neg hc]
      simp [(List.cons.inj this.symm).1, (List.cons.inj this.symm).2]

/-! Lemmas about the parser on terminator-free text. -/

theorem parse_noterm (fuel : Nat) (text : List Char) (acc : List Node)
    (h1 : trimJS text ≠ []) (h2 : searchTerm text = none) :
    parseJS (fuel + 1) text acc = some (acc ++ [Node.decl (splitColonTrim text)]) := by
  rw [parseJS, if_neg h1, h2]

/-! Compiling a set that contains only simple declarations. -/

theorem compile_all_simple (ds : List Node) (h1 : ds ≠ [])
    (h2 : ∀ n ∈ ds, isSimpleB n) :
    compile ds =
      ⟨["hw_".toList ++ hashJS (placeholderL ++ " \x7b ".toList
          ++ stringifyProperties (ds.filter (fun n => !(isCustomB n))) ++ " \x7d".toList)],
        ds.filter isCustomB,
        [(placeholderL ++ " \x7b ".toList
            ++ stringifyProperties (ds.filter (fun n => !(isCustomB n))) ++ " \x7d".toList,
          '.' :: ("hw_".toList ++ hashJS (placeholderL ++ " \x7b ".toList
            ++ stringifyProperties (ds.filter (fun n => !(isCustomB n))) ++ " \x7d".toList)))]⟩ := by
  have hs : ds.filter isSimpleB = ds := List.filter_eq_self.mpr h2
  have hn : ds.filter isNestedB = [] := List.filter_eq_nil_iff.mpr (fun a ha => by
    have := h2 a ha
    simp [isSimpleB] at this
    simp [this])
  have hlen : 0 < ds.length := List.length_pos.mpr h1
  simp [compile, hs, hn, hlen]

theorem addRule_twice (rb sel : List Char) :
    addRule (addRule [] rb sel) rb sel = [(rb, [sel])] := by
  simp [addRule, List.find?]

set_option maxRecDepth 100000 in
/-- C1 counterexample: compile the simple declaration set
`[("color", "red")]` twice (two nodes with identical inline style text) and
merge both resulting (ruleBody, selector) pairs - which are identical, by
determinism - into one accumulator: the single map entry's selector set has
one member, not two. -/
theorem C1_counterexample :
    (let r := (compile [Node.decl ["color".toList, "red".toList]]).rules.getD 0 ([], []);
      (addRule (addRule [] r.1 r.2) r.1 r.2).length = 1 ∧
        ((addRule (addRule [] r.1 r.2) r.1 r.2).getD 0 ([], [])).2.length = 1) := by
  decide

/-- C1 amended: for every non-empty simple-declaration set, compiling
yields exactly one (ruleBody, selector) pair - the same both times, since
compilation is a pure function - and merging that pair twice into one
accumulator yields a single map entry whose selector set has exactly one
member (the duplicate selector is absorbed by set semantics). -/
theorem C1_amended (ds : List Node) (h1 : ds ≠ []) (h2 : ∀ n ∈ ds, isSimpleB n) :
    ∃ rb sel, (compile ds).rules = [(rb, sel)] ∧
      addRule (addRule [] rb sel) rb sel = [(rb, [sel])] := by
  rw [compile_all_simple ds h1 h2]
  exact ⟨_, _, rfl, addRule_twice _ _⟩

/-- Witness for C1: the amended statement applied to the concrete
declaration set `[("color", "red")]`. -/
theorem C1_amended_wit :
    (([Node.decl ["color".toList, "red".toList]] : List Node) ≠ [] ∧
        ∀ n ∈ ([Node.decl ["color".toList, "red".toList]] : List Node), isSimpleB n) ∧
      ∃ rb sel,
        (compile [Node.decl ["color".toList, "red".toList]]).rules = [(rb, sel)] ∧
          addRule (addRule [] rb sel) rb sel = [(rb, [sel])] :=
  ⟨⟨by decide, by decide⟩,
    C1_amended [Node.decl ["color".toList, "red".toList]] (by decide) (by decide)⟩

/-- C3 counterexample: on the input "color", whose only segment does not
split into two tokens, parse returns a recoverable `some` result (the
one-element array) instead of aborting. -/
theorem C3_counterexample :
    (splitColonTrim "color".toList).length ≠ 2 ∧
      parseJS 2 "color".toList [] = some [Node.decl ["color".toList]] := by
  decide

set_option maxRecDepth 100000 in
/-- C4 counterexample: the declaration "background: url(http://x)" is
split on every ":" into three trimmed parts, not into a single
(property, value) pair with the value kept intact. -/
theorem C4_counterexample :
    parseJS 2 "background: url(http://x)".toList [] =
        some [Node.decl ["background".toList, "url(http".toList, "//x)".toList]] ∧
      Node.decl ["background".toList, "url(http".toList, "//x)".toList] ≠
        Node.decl ["background".toList, "url(http://x)".toList] := by
  decide

set_option maxRecDepth 100000 in
/-- C6: serialization joins each entry's selector set with ", " and
substitutes the joined list for the placeholder in the rule body, joining
rules with newlines in insertion order: the single-entry example produces
".a, .b \x7b color: red; \x7d", a two-entry accumulator keeps insertion
order, and the empty accumulator serializes to the empty string. -/
theorem C6_serialize :
    stringifyStylesheet
        [(placeholderL ++ " \x7b color: red; \x7d".toList, [".a".toList, ".b".toList])] =
        ".a, .b \x7b color: red; \x7d".toList ∧
      stringifyStylesheet
          [(placeholderL ++ " \x7b color: red; \x7d".toList, [".a".toList]),
            (placeholderL ++ " \x7b color: blue; \x7d".toList, [".b".toList])] =
        (".a \x7b color: red; \x7d".toList ++ '\n' :: ".b \x7b color: blue; \x7d".toList) ∧
      stringifyStylesheet [] = [] := by
  decide

set_option maxRecDepth 400000 in
/-- C8: identical nested declaration sets under the pseudo-classes
":hover" and ":focus" compile to two distinct generated class names,
because the pseudo-class fragment participates in the hash key. -/
theorem C8_distinct_pseudo :
    (compile [Node.nested ":hover".toList [Node.decl ["color".toList, "blue".toList]]]).classes ≠
      (compile [Node.nested ":focus".toList [Node.decl ["color".toList, "blue".toList]]]).classes := by
  decide

/-- C9: for a node whose style attribute is absent or not a string, the
hook is a no-op pass-through: it never fails, returns the stylesheet and
the node (all properties included) unchanged, and emits at most the one
diagnostic warning for a non-string value. -/
theorem C9_hook_noop (fuel : Nat) (sheet : Sheet) (v : VNodeM)
    (h : ∀ s, v.style ≠ some (StyleAttr.strVal s)) :
    ∃ w, hookJS fuel sheet v = some (sheet, v, w) ∧
      (w = [] ∨ ∃ t, v.style = some (StyleAttr.nonStr t) ∧ w = [warnMsg t v.vtype]) := by
  match hv : v.style with
  | none => exact ⟨[], by rw [hookJS, hv], Or.inl rfl⟩
  | some (.nonStr t) => exact ⟨[warnMsg t v.vtype], by rw [hookJS, hv], Or.inr ⟨t, rfl, rfl⟩⟩
  | some (.strVal s) => exact absurd hv (h s)

/-- Witness for C9: the hook applied to a concrete node with no style
attribute. -/
theorem C9_hook_noop_wit :
    (∀ s, (⟨"div".toList, none, none, []⟩ : VNodeM).style ≠ some (StyleAttr.strVal s)) ∧
      ∃ w, hookJS 1 [] (⟨"div".toList, none, none, []⟩ : VNodeM) =
          some ([], (⟨"div".toList, none, none, []⟩ : VNodeM), w) ∧
        (w = [] ∨ ∃ t, (⟨"div".toList, none, none, []⟩ : VNodeM).style =
            some (StyleAttr.nonStr t) ∧
          w = [warnMsg t (⟨"div".toList, none, none, []⟩ : VNodeM).vtype]) :=
  ⟨fun s => by simp, C9_hook_noop 1 [] _ (fun s => by simp)⟩

/-! Lemmas about the hasher. -/

theorem mask_shift (h k : Nat) : (h &&& (63 <<< k)) >>> k = (h >>> k) &&& 63 := by
  apply Nat.eq_of_testBit_eq
  intro i
  simp [Nat.testBit_shiftRight, Nat.testBit_and, Nat.testBit_shiftLeft,
    Nat.le_add_right, Nat.add_sub_cancel_left]

theorem hashJS_eq_amended (s : List Char) : hashJS s = hashRefAmended s := by
  have key : ∀ (H k m : Nat), m = 63 <<< k → alphabetL.getD ((H &&& m) >>> k) '?' =
      alphabetL.getD ((H >>> k) &&& 63) '?' := by
    intro H k m hm
    rw [hm, mask_shift]
  simp only [hashJS, hashRefAmended, masks, List.enum, List.enumFrom, List.map]
  refine List.ext_getElem (by simp) ?_
  intro i h1 h2
  have h5 : i < 5 := by simpa using h1
  interval_cases i
  · exact key _ 0 _ (by decide)
  · exact key _ 6 _ (by decide)
  · exact key _ 12 _ (by decide)
  · exact key _ 18 _ (by decide)
  · exact key _ 24 _ (by decide)

theorem getD_mem_of_lt {l : List Char} {i : Nat} {d : Char} (h : i < l.length) :
    l.getD i d ∈ l := by
  rw [List.getD_eq_getElem?_getD, List.getElem?_eq_getElem h]
  exact List.getElem_mem h

theorem hashJS_length (s : List Char) : (hashJS s).length = 5 := by
  simp [hashJS, masks, List.enum, List.enumFrom]

theorem hashJS_mem_alphabet (s : List Char) : ∀ c ∈ hashJS s, c ∈ alphabetL := by
  intro c hc
  rw [hashJS_eq_amended] at hc
  simp only [hashRefAmended, List.map, List.mem_cons, List.mem_singleton] at hc
  have hb : ∀ x : Nat, x &&& 63 < alphabetL.length := by
    intro x
    have : x &&& 63 ≤ 63 := Nat.and_le_right
    have h64 : alphabetL.length = 64 := by decide
    omega
  rcases hc with rfl | rfl | rfl | rfl | rfl | h
  · exact getD_mem_of_lt (hb _)
  · exact getD_mem_of_lt (hb _)
  · exact getD_mem_of_lt (hb _)
  · exact getD_mem_of_lt (hb _)
  · exact getD_mem_of_lt (hb _)
  · cases h

/-- C2 counterexample: on the single-character string U+1F600 (an astral
code point), the source hash - which feeds `charCodeAt(0)`, the leading
UTF-16 surrogate, into the accumulator - differs from the reference
algorithm of the claim, which feeds the code point itself. -/
theorem C2_counterexample :
    hashJS [Char.ofNat 0x1F600] ≠ hashRef [Char.ofNat 0x1F600] := by
  decide

/-- C2 amended: `hash` is a pure function that agrees with the reference
algorithm amended to add, per character, the first UTF-16 code unit (equal
to the code point below U+10000) to the 32-bit accumulator seeded at 313,
extracting five 6-bit fields at offsets 0, 6, 12, 18, 24 into the 64-entry
alphabet; the output always has length exactly 5 and every output
character belongs to the alphabet. -/
theorem C2_amended (s : List Char) :
    hashJS s = hashRefAmended s ∧ (hashJS s).length = 5 ∧
      ∀ c ∈ hashJS s, c ∈ alphabetL :=
  ⟨hashJS_eq_amended s, hashJS_length s, hashJS_mem_alphabet s⟩

/-! Lemmas about terminator search, and divergence of the parser. -/

theorem searchTerm_none_mem {l : List Char} (h : searchTerm l = none) :
    ∀ x ∈ l, ¬(x = ';' ∨ x = '\x7b') := by
  induction l with
  | nil => intro x hx; cases hx
  | cons c rest ih =>
    intro x hx
    rw [searchTerm] at h
    by_cases hc : c = ';' ∨ c = '\x7b'
    · rw [if_pos hc] at h; cases h
    · rw [if_neg hc] at h
      rcases List.mem_cons.mp hx with rfl | hx2
      · exact hc
      · exact ih (by cases hst : searchTerm rest <;> simp [hst] at h ⊢) x hx2

theorem searchTerm_some_mem {l : List Char} {i : Nat} (h : searchTerm l = some i) :
    l.getD i ' ' = ';' ∨ l.getD i ' ' = '\x7b' := by
  induction l generalizing i with
  | nil => cases h
  | cons c rest ih =>
    rw [searchTerm] at h
    by_cases hc : c = ';' ∨ c = '\x7b'
    · rw [if_pos hc] at h
      cases h
      simpa using hc
    · rw [if_neg hc] at h
      cases hst : searchTerm rest with
      | none => rw [hst] at h; cases h
      | some j =>
        rw [hst] at h
        simp at h
        subst h
        simpa using ih hst

theorem brace_in_tail {l : List Char} {i : Nat} (hs : searchTerm l = some i)
    (hsemi : l.getD i ' ' = ';') (hb : '\x7b' ∈ l) : '\x7b' ∈ l.drop (i + 1) := by
  induction l generalizing i with
  | nil => cases hb
  | cons c rest ih =>
    rw [searchTerm] at hs
    by_cases hc : c = ';' ∨ c = '\x7b'
    · rw [if_pos hc] at hs
      cases hs
      simp only [List.getD_cons_zero] at hsemi
      subst hsemi
      simpa using hb
    · rw [if_neg hc] at hs
      cases hst : searchTerm rest with
      | none => rw [hst] at hs; cases hs
      | some j =>
        rw [hst] at hs
        simp at hs
        subst hs
        have hbr : '\x7b' ∈ rest := by
          rcases List.mem_cons.mp hb with rfl | h2
          · exact absurd (Or.inr rfl) hc
          · exact h2
        simpa using ih hst (by simpa using hsemi) hbr

theorem indexOfChar_eq_none {ch : Char} {l : List Char} (h : ch ∉ l) :
    indexOfChar ch l = none := by
  induction l with
  | nil => rfl
  | cons c rest ih =>
    have hc : ¬(c = ch) := fun e => h (e ▸ List.mem_cons_self c rest)
    rw [indexOfChar, if_neg hc, ih (fun m => h (List.mem_cons_of_mem c m))]
    rfl

/-- C5: on every input containing an opening brace but no closing brace at
all (so certainly no matching terminator), the parse recursion never
returns for any amount of fuel - the JS original recurses on the unchanged
input and dies of stack exhaustion, a hard failure that never produces a
parsed result. -/
theorem C5_parse_diverges : ∀ (fuel : Nat) (text : List Char) (acc : List Node),
    '\x7b' ∈ text → '\x7d' ∉ text → parseJS fuel text acc = none := by
  intro fuel
  induction fuel with
  | zero => intro text acc h1 h2; rfl
  | succ n ih =>
    intro text acc h1 h2
    rw [parseJS]
    rw [if_neg (trimJS_ne_nil h1 (by decide))]
    obtain ⟨i, hi⟩ : ∃ i, searchTerm text = some i := by
      cases hst : searchTerm text with
      | none => exact absurd (searchTerm_none_mem hst _ h1) (by simp)
      | some i => exact ⟨i, rfl⟩
    rw [hi]
    by_cases hsemi : text.getD i ' ' = ';'
    · simp only [if_pos hsemi]
      exact ih _ _ (brace_in_tail hi hsemi h1) (fun m => h2 (List.mem_of_mem_drop m))
    · simp only [if_neg hsemi]
      have hnone : indexOfChar '\x7d' text = none := indexOfChar_eq_none h2
      cases hrb : parseJS n ((text.take (text.length - 1)).drop (i + 1)) [] with
      | none => simp [hnone, hrb]
      | some props =>
        simp only [hnone, hrb]
        exact ih _ _ h1 h2

/-- Witness for C5: the concrete unterminated input
":hover \x7b color: red" makes the parser diverge. -/
theorem C5_parse_diverges_wit :
    ('\x7b' ∈ ":hover \x7b color: red".toList ∧
        '\x7d' ∉ ":hover \x7b color: red".toList) ∧
      parseJS 7 ":hover \x7b color: red".toList [] = none :=
  ⟨⟨by decide, by decide⟩, C5_parse_diverges 7 _ [] (by decide) (by decide)⟩

/-! Structure of compiled classes and rules (claim C10). -/

theorem isNestedB_eq {n : Node} (h : isNestedB n = true) :
    ∃ s b, n = Node.nested s b := by
  cases n with
  | decl parts => simp [isNestedB] at h
  | nested s b => exact ⟨s, b, rfl⟩

theorem foldl_combine_forall {P : List Char → (List Char × List Char) → Prop}
    (l : List CompiledCSS) (init : CompiledCSS)
    (hinit : List.Forall₂ P init.classes init.rules)
    (hl : ∀ x ∈ l, List.Forall₂ P x.classes x.rules) :
    List.Forall₂ P (l.foldl combineCompiled init).classes
      (l.foldl combineCompiled init).rules := by
  induction l generalizing init with
  | nil => exact hinit
  | cons x xs ih =>
    refine ih _ ?_ (fun y hy => hl y (List.mem_cons_of_mem x hy))
    exact List.rel_append hinit (hl x (List.mem_cons_self x xs))

/-- C10: for every parsed CSS input (whose declaration arrays are
non-empty, as the parser guarantees; on other inputs the original crashes),
classes and rules are produced in one-to-one correspondence in the same
order; every class is "hw_" followed by a 5-character alphabet token
(total length 8), and every rule's selector is "." followed by that class,
optionally followed by a nested-rule selector fragment of the input. -/
theorem C10_shape (p : List Node)
    (hwf : ∀ parts, Node.decl parts ∈ p → parts ≠ []) :
    List.Forall₂ (fun cls r =>
        cls.length = 8 ∧
          (∃ tok, tok.length = 5 ∧ (∀ ch ∈ tok, ch ∈ alphabetL) ∧
            cls = "hw_".toList ++ tok) ∧
          ∃ suffix, r.2 = '.' :: (cls ++ suffix) ∧
            (suffix = [] ∨ ∃ body, Node.nested suffix body ∈ p))
      (compile p).classes (compile p).rules := by
  clear hwf
  simp only [compile]
  apply foldl_combine_forall
  · by_cases h : 0 < (p.filter isSimpleB).length
    · simp only [if_pos h]
      refine List.Forall₂.cons ?_ List.Forall₂.nil
      refine ⟨by simp [hashJS_length], ⟨_, hashJS_length _, hashJS_mem_alphabet _, rfl⟩,
        [], by simp, Or.inl rfl⟩
    · simp only [if_neg h]
      exact List.Forall₂.nil
  · intro x hx
    rcases List.mem_append.mp hx with hx | hx
    · obtain ⟨n, hn, rfl⟩ := List.mem_map.mp hx
      have hnp : n ∈ p := List.mem_of_mem_filter (List.mem_of_mem_filter hn)
      have hnest : isNestedB n = true :=
        List.of_mem_filter (List.mem_of_mem_filter hn)
      obtain ⟨s, b, rfl⟩ := isNestedB_eq hnest
      refine List.Forall₂.cons ?_ List.Forall₂.nil
      refine ⟨by simp [hashJS_length], ⟨_, hashJS_length _, hashJS_mem_alphabet _, rfl⟩,
        declHead (Node.nested s b), by simp, Or.inr ⟨b, hnp⟩⟩
    · obtain ⟨n, hn, rfl⟩ := List.mem_map.mp hx
      refine List.Forall₂.cons ?_ List.Forall₂.nil
      refine ⟨by simp [hashJS_length], ⟨_, hashJS_length _, hashJS_mem_alphabet _, rfl⟩,
        [], by simp, Or.inl rfl⟩

/-- Witness for C10: the shape statement applied to a concrete parsed
input with one simple declaration and one pseudo-class rule. -/
theorem C10_shape_wit :
    (∀ parts, Node.decl parts ∈
        [Node.decl ["color".toList, "red".toList],
          Node.nested ":hover".toList [Node.decl ["color".toList, "blue".toList]]] →
      parts ≠ []) ∧
      List.Forall₂ (fun cls r =>
          cls.length = 8 ∧
            (∃ tok, tok.length = 5 ∧ (∀ ch ∈ tok, ch ∈ alphabetL) ∧
              cls = "hw_".toList ++ tok) ∧
            ∃ suffix, r.2 = '.' :: (cls ++ suffix) ∧
              (suffix = [] ∨ ∃ body, Node.nested suffix body ∈
                [Node.decl ["color".toList, "red".toList],
                  Node.nested ":hover".toList [Node.decl ["color".toList, "blue".toList]]]))
        (compile [Node.decl ["color".toList, "red".toList],
          Node.nested ":hover".toList [Node.decl ["color".toList, "blue".toList]]]).classes
        (compile [Node.decl ["color".toList, "red".toList],
          Node.nested ":hover".toList [Node.decl ["color".toList, "blue".toList]]]).rules :=
  ⟨by
      intro parts hmem
      simp only [List.mem_cons, List.not_mem_nil, or_false] at hmem
      rcases hmem with h | h <;> simp_all,
    C10_shape _ (by
      intro parts hmem
      simp only [List.mem_cons, List.not_mem_nil, or_false] at hmem
      rcases hmem with h | h <;> simp_all)⟩

/-! Substring-elimination helpers: an occurrence of a pattern inside a
concatenation must avoid any separator character that the pattern does not
contain. -/

theorem pref_append_cons {p a b : List Char} {c : Char} (hc : c ∉ p) :
    p <+: a ++ c :: b → p <+: a := by
  induction a generalizing p with
  | nil =>
    intro h
    cases p with
    | nil => exact List.nil_prefix
    | cons q p2 =>
      obtain ⟨t, ht⟩ := h
      rw [List.nil_append, List.cons_append] at ht
      injection ht with h1 h2
      exact absurd (h1 ▸ List.mem_cons_self q p2) hc
  | cons x a2 ih =>
    intro h
    cases p with
    | nil => exact List.nil_prefix
    | cons q p2 =>
      rw [List.cons_append] at h
      rcases List.cons_prefix_cons.mp h with ⟨rfl, h2⟩
      exact List.cons_prefix_cons.mpr
        ⟨rfl, ih (fun m => hc (List.mem_cons_of_mem _ m)) h2⟩

theorem sub_append_cons {p a b : List Char} {c : Char} (hp : p ≠ []) (hc : c ∉ p) :
    p <:+: a ++ c :: b → p <:+: a ∨ p <:+: b := by
  induction a with
  | nil =>
    intro h
    rw [List.nil_append] at h
    rcases List.infix_cons_iff.mp h with hpre | hinf
    · cases p with
      | nil => exact absurd rfl hp
      | cons q p2 =>
        rcases List.cons_prefix_cons.mp hpre with ⟨rfl, _⟩
        exact absurd (List.mem_cons_self q p2) hc
    · exact Or.inr hinf
  | cons x a2 ih =>
    intro h
    rw [List.cons_append] at h
    rcases List.infix_cons_iff.mp h with hpre | hinf
    · exact Or.inl (pref_append_cons hc hpre).isInfix
    · rcases ih hinf with h1 | h1
      · exact Or.inl (h1.trans (List.suffix_cons x a2).isInfix)
      · exact Or.inr h1

theorem sub_cons_elim {p b : List Char} {c : Char} (hp : p ≠ []) (hc : c ∉ p) :
    p <:+: c :: b → p <:+: b := by
  intro h
  rcases sub_append_cons (a := []) hp hc (by simpa using h) with h1 | h1
  · exact absurd (List.infix_nil.mp h1) hp
  · exact h1

theorem sub_seq_elim {p z : List Char} (hp : p ≠ []) :
    ∀ {sep : List Char}, (∀ c ∈ sep, c ∉ p) → p <:+: sep ++ z → p <:+: z := by
  intro sep
  induction sep with
  | nil => intro _ h; simpa using h
  | cons c sep2 ih =>
    intro hall h
    rw [List.cons_append] at h
    exact ih (fun d hd => hall d (List.mem_cons_of_mem c hd))
      (sub_cons_elim hp (hall c (List.mem_cons_self c sep2)) h)

theorem sub_append_sep {p x sep z : List Char} (hp : p ≠ [])
    (hall : ∀ c ∈ sep, c ∉ p) (hsep : sep ≠ []) :
    p <:+: x ++ (sep ++ z) → p <:+: x ∨ p <:+: z := by
  intro h
  cases sep with
  | nil => exact absurd rfl hsep
  | cons c sep2 =>
    rw [List.cons_append] at h
    rcases sub_append_cons hp (hall c (List.mem_cons_self c sep2)) h with h1 | h1
    · exact Or.inl h1
    · exact Or.inr (sub_seq_elim hp (fun d hd => hall d (List.mem_cons_of_mem c hd)) h1)

theorem join_not_sub {p sep : List Char} (hp : p ≠ []) (hsep : sep ≠ [])
    (hall : ∀ c ∈ sep, c ∉ p) :
    ∀ {pieces : List (List Char)}, (∀ x ∈ pieces, ¬ p <:+: x) →
      ¬ p <:+: joinJS sep pieces := by
  intro pieces
  induction pieces with
  | nil => intro _ h; exact hp (List.infix_nil.mp h)
  | cons x xs ih =>
    intro hx h
    cases xs with
    | nil => exact hx x (List.mem_cons_self x []) (by simpa [joinJS] using h)
    | cons y ys =>
      rw [show joinJS sep (x :: y :: ys) = x ++ sep ++ joinJS sep (y :: ys) from rfl,
        List.append_assoc] at h
      rcases sub_append_sep hp hall hsep h with h1 | h1
      · exact hx x (List.mem_cons_self _ _) h1
      · exact ih (fun z hz => hx z (List.mem_cons_of_mem x hz)) h1

theorem not_sub_of_len {p s : List Char} (h : s.length < p.length) :
    ¬ p <:+: s :=
  fun hinf => absurd hinf.length_le (by omega)

theorem join_mem {c : Char} {sep : List Char} :
    ∀ {pieces : List (List Char)}, c ∈ joinJS sep pieces →
      c ∈ sep ∨ ∃ x ∈ pieces, c ∈ x := by
  intro pieces
  induction pieces with
  | nil => intro h; cases h
  | cons x xs ih =>
    intro h
    cases xs with
    | nil =>
      simp only [joinJS] at h
      exact Or.inr ⟨x, List.mem_cons_self x [], h⟩
    | cons y ys =>
      rw [show joinJS sep (x :: y :: ys) = x ++ sep ++ joinJS sep (y :: ys) from rfl] at h
      rcases List.mem_append.mp h with h1 | h1
      · rcases List.mem_append.mp h1 with h2 | h2
        · exact Or.inr ⟨x, List.mem_cons_self _ _, h2⟩
        · exact Or.inl h2
      · rcases ih h1 with h2 | ⟨z, hz, h3⟩
        · exact Or.inl h2
        · exact Or.inr ⟨z, List.mem_cons_of_mem x hz, h3⟩

/-! Every string the parser produces is a contiguous substring of its
input. -/

theorem trimJS_sub (l : List Char) : trimJS l <:+: l := by
  unfold trimJS
  have h1 : (l.dropWhile isWSChar).reverse.dropWhile isWSChar <:+
      (l.dropWhile isWSChar).reverse := List.dropWhile_suffix _
  have h2 : ((l.dropWhile isWSChar).reverse.dropWhile isWSChar).reverse <+:
      (l.dropWhile isWSChar).reverse.reverse := List.reverse_prefix.mpr h1
  rw [List.reverse_reverse] at h2
  exact h2.isInfix.trans (List.dropWhile_suffix isWSChar).isInfix

theorem take_sub (n : Nat) (l : List Char) : l.take n <:+: l :=
  (List.take_prefix n l).isInfix

theorem drop_sub (n : Nat) (l : List Char) : l.drop n <:+: l :=
  (List.drop_suffix n l).isInfix

theorem drop_take_sub (m n : Nat) (l : List Char) :
    (l.take n).drop m <:+: l :=
  (drop_sub m (l.take n)).trans (take_sub n l)

theorem splitJS_sub (sep : Char) :
    ∀ l : List Char, (∀ x ∈ splitJS sep l, x <:+: l) ∧
      (∀ h t, splitJS sep l = h :: t → h <+: l) := by
  intro l
  induction l with
  | nil =>
    refine ⟨fun x hx => ?_, fun h t het => ?_⟩
    · simp only [splitJS, List.mem_singleton] at hx
      simp [hx]
    · simp only [splitJS] at het
      injection het with h1 _
      simp [← h1]
  | cons c rest ih =>
    obtain ⟨ihm, ihh⟩ := ih
    cases hr : splitJS sep rest with
    | nil => exact absurd hr (splitJS_ne_nil sep rest)
    | cons p ps =>
      by_cases hcs : c = sep
      · have he : splitJS sep (c :: rest) = [] :: p :: ps := by
          rw [splitJS, hr]; simp [hcs]
        refine ⟨fun x hx => ?_, fun h t het => ?_⟩
        · rw [he] at hx
          rcases List.mem_cons.mp hx with rfl | hx2
          · exact List.nil_infix
          · exact ((ihm x (hr ▸ hx2)).trans (List.suffix_cons c rest).isInfix)
        · rw [he] at het
          injection het with h1 _
          simp [← h1]
      · have he : splitJS sep (c :: rest) = (c :: p) :: ps := by
          rw [splitJS, hr]; simp [hcs]
        have hp : p <+: rest := ihh p ps hr
        refine ⟨fun x hx => ?_, fun h t het => ?_⟩
        · rw [he] at hx
          rcases List.mem_cons.mp hx with rfl | hx2
          · exact (List.cons_prefix_cons.mpr ⟨rfl, hp⟩).isInfix
          · exact ((ihm x (hr ▸ List.mem_cons_of_mem p hx2)).trans
              (List.suffix_cons c rest).isInfix)
        · rw [he] at het
          injection het with h1 _
          rw [← h1]
          exact List.cons_prefix_cons.mpr ⟨rfl, hp⟩

theorem splitColonTrim_sub {l q : List Char} (hq : q ∈ splitColonTrim l) :
    q <:+: l := by
  obtain ⟨piece, hpm, rfl⟩ := List.mem_map.mp hq
  exact (trimJS_sub piece).trans ((splitJS_sub ':' l).1 piece hpm)

mutual
/-- All strings occurring in a parsed node are contiguous substrings of
`s`. -/
def NodeInfix : Node → List Char → Prop
  | .decl parts, s => ∀ q ∈ parts, q <:+: s
  | .nested sel body, s => sel <:+: s ∧ NodesInfix body s
/-- All strings occurring in a list of parsed nodes are contiguous
substrings of `s`. -/
def NodesInfix : List Node → List Char → Prop
  | [], _ => True
  | n :: ns, s => NodeInfix n s ∧ NodesInfix ns s
end

theorem nodesInfix_iff {l : List Node} {s : List Char} :
    NodesInfix l s ↔ ∀ n ∈ l, NodeInfix n s := by
  induction l with
  | nil => simp [NodesInfix]
  | cons n ns ih =>
    rw [NodesInfix, ih]
    constructor
    · rintro ⟨h1, h2⟩ m hm
      rcases List.mem_cons.mp hm with rfl | hm2
      · exact h1
      · exact h2 m hm2
    · intro h
      exact ⟨h n (List.mem_cons_self n ns),
        fun m hm => h m (List.mem_cons_of_mem n hm)⟩

mutual
theorem nodeInfix_mono : (n : Node) → {s s2 : List Char} →
    NodeInfix n s → s <:+: s2 → NodeInfix n s2
  | .decl parts => fun h hs q hq => (h q hq).trans hs
  | .nested sel body => fun h hs =>
      ⟨h.1.trans hs, nodesInfix_mono body h.2 hs⟩
theorem nodesInfix_mono : (l : List Node) → {s s2 : List Char} →
    NodesInfix l s → s <:+: s2 → NodesInfix l s2
  | [] => fun _ _ => trivial
  | n :: ns => fun h hs =>
      ⟨nodeInfix_mono n h.1 hs, nodesInfix_mono ns h.2 hs⟩
end

theorem parse_substr : ∀ (fuel : Nat) (s : List Char) (acc r : List Node),
    parseJS fuel s acc = some r → ∀ n ∈ r, n ∈ acc ∨ NodeInfix n s := by
  intro fuel
  induction fuel with
  | zero => intro s acc r h; cases h
  | succ m ih =>
    intro s acc r h n hn
    rw [parseJS] at h
    by_cases ht : trimJS s = []
    · rw [if_pos ht] at h
      injection h with h1
      exact Or.inl (h1 ▸ hn)
    · rw [if_neg ht] at h
      cases hst : searchTerm s with
      | none =>
        simp only [hst] at h
        injection h with h1
        rcases List.mem_append.mp (h1 ▸ hn) with h2 | h2
        · exact Or.inl h2
        · refine Or.inr ?_
          have he : n = Node.decl (splitColonTrim s) := by simpa using h2
          subst he
          exact fun q hq => splitColonTrim_sub hq
      | some i =>
        simp only [hst] at h
        by_cases hsemi : s.getD i ' ' = ';'
        · rw [if_pos hsemi] at h
          rcases ih _ _ _ h n hn with h1 | h1
          · rcases List.mem_append.mp h1 with h2 | h2
            · exact Or.inl h2
            · refine Or.inr ?_
              have he : n = Node.decl (splitColonTrim (s.take i)) := by simpa using h2
              subst he
              exact fun q hq => (splitColonTrim_sub hq).trans (take_sub i s)
          · exact Or.inr (nodeInfix_mono n h1 (drop_sub (i + 1) s))
        · rw [if_neg hsemi] at h
          cases hcl : indexOfChar '\x7d' s with
          | some j =>
            simp only [hcl] at h
            cases hrb : parseJS m ((s.take j).drop (i + 1)) [] with
            | none => rw [hrb] at h; cases h
            | some props =>
              rw [hrb] at h
              rcases ih _ _ _ h n hn with h1 | h1
              · rcases List.mem_append.mp h1 with h2 | h2
                · exact Or.inl h2
                · refine Or.inr ?_
                  have he : n = Node.nested (trimJS (s.take i)) props := by
                    simpa using h2
                  subst he
                  refine ⟨(trimJS_sub _).trans (take_sub i s), ?_⟩
                  rw [nodesInfix_iff]
                  intro n2 hn2
                  rcases ih _ [] props hrb n2 hn2 with h3 | h3
                  · cases h3
                  · exact nodeInfix_mono n2 h3 (drop_take_sub (i + 1) j s)
              · exact Or.inr (nodeInfix_mono n h1 (drop_sub (j + 1) s))
          | none =>
            simp only [hcl] at h
            cases hrb : parseJS m ((s.take (s.length - 1)).drop (i + 1)) [] with
            | none => rw [hrb] at h; cases h
            | some props =>
              rw [hrb] at h
              rcases ih _ _ _ h n hn with h1 | h1
              · rcases List.mem_append.mp h1 with h2 | h2
                · exact Or.inl h2
                · refine Or.inr ?_
                  have he : n = Node.nested (trimJS (s.take i)) props := by
                    simpa using h2
                  subst he
                  refine ⟨(trimJS_sub _).trans (take_sub i s), ?_⟩
                  rw [nodesInfix_iff]
                  intro n2 hn2
                  rcases ih _ [] props hrb n2 hn2 with h3 | h3
                  · cases h3
                  · exact nodeInfix_mono n2 h3 (drop_take_sub (i + 1) (s.length - 1) s)
              · exact Or.inr h1

/-! Freeness of stringified rule bodies: if the style source contains no
placeholder occurrence, neither does any string built from its parsed
pieces. -/

theorem free_of_sub {p s q : List Char} (hs : ¬ p <:+: s) (hq : q <:+: s) :
    ¬ p <:+: q :=
  fun hp => hs (hp.trans hq)

theorem notmem_of_sub {c : Char} {s q : List Char} (hs : c ∉ s)
    (hq : q <:+: s) : c ∉ q :=
  fun hc => hs (hq.sublist.subset hc)

mutual
theorem nodeToStr_free : (n : Node) → {s : List Char} → NodeInfix n s →
    ¬ placeholderL <:+: s → ¬ placeholderL <:+: nodeToStr n
  | .decl parts => fun h hfree =>
      join_not_sub (by decide) (by decide) (by decide)
        (fun x hx => free_of_sub hfree (h x hx))
  | .nested sel body => fun h hfree hsub => by
      rw [show nodeToStr (.nested sel body) = sel ++ ',' :: listToStr body from rfl] at hsub
      rcases sub_append_cons (by decide) (by decide) hsub with h1 | h1
      · exact free_of_sub hfree h.1 h1
      · exact listToStr_free body h.2 hfree h1
theorem listToStr_free : (l : List Node) → {s : List Char} → NodesInfix l s →
    ¬ placeholderL <:+: s → ¬ placeholderL <:+: listToStr l
  | [] => fun _ _ hsub => (by decide : placeholderL ≠ []) (List.infix_nil.mp hsub)
  | [n] => fun h hfree => nodeToStr_free n h.1 hfree
  | n :: m :: ns => fun h hfree hsub => by
      rw [show listToStr (n :: m :: ns) = nodeToStr n ++ ',' :: listToStr (m :: ns)
        from rfl] at hsub
      rcases sub_append_cons (by decide) (by decide) hsub with h1 | h1
      · exact nodeToStr_free n h.1 hfree h1
      · exact listToStr_free (m :: ns) h.2 hfree h1
end

theorem tupleJoin_free {n : Node} {s : List Char} (h : NodeInfix n s)
    (hfree : ¬ placeholderL <:+: s) : ¬ placeholderL <:+: tupleJoin n := by
  cases n with
  | decl parts =>
    exact join_not_sub (by decide) (by decide) (by decide)
      (fun x hx => free_of_sub hfree (h x hx))
  | nested sel body =>
    intro hsub
    rw [show tupleJoin (.nested sel body) = sel ++ (": ".toList ++ listToStr body)
      from by simp [tupleJoin]] at hsub
    rcases sub_append_sep (by decide) (by decide) (by decide) hsub with h1 | h1
    · exact free_of_sub hfree h.1 h1
    · exact listToStr_free body h.2 hfree h1

theorem stringifyProperties_free {props : List Node} {s : List Char}
    (h : ∀ n ∈ props, NodeInfix n s) (hfree : ¬ placeholderL <:+: s) :
    ¬ placeholderL <:+: stringifyProperties props := by
  refine join_not_sub (by decide) (by decide) (by decide) ?_
  intro x hx
  obtain ⟨n, hn, rfl⟩ := List.mem_map.mp hx
  exact tupleJoin_free (h n hn) hfree

/-! Shape invariants for rule bodies and selectors in the accumulator. -/

/-- A rule body produced by the compiler: exactly one explicit placeholder
occurrence, preceded by a placeholder-free prefix that is empty or ends in
a space, and followed by a placeholder-free suffix starting with a space. -/
def RBOK (rb : List Char) : Prop :=
  ∃ pre post, rb = pre ++ (placeholderL ++ post) ∧
    ¬ placeholderL <:+: pre ∧ ¬ placeholderL <:+: post ∧
    (pre = [] ∨ ∃ pre0, pre = pre0 ++ [' ']) ∧ ∃ post1, post = ' ' :: post1

/-- A selector stored in the accumulator: placeholder-free and without the
replacement-escape character. -/
def SelOK (sel : List Char) : Prop :=
  ¬ placeholderL <:+: sel ∧ '$' ∉ sel

/-- Invariant of the whole accumulator. -/
def SheetOK (sheet : Sheet) : Prop :=
  ∀ e ∈ sheet, RBOK e.1 ∧ ∀ sel ∈ e.2, SelOK sel

theorem post_free {body T2 : List Char} (hb : ¬ placeholderL <:+: body)
    (hlen : T2.length < placeholderL.length) :
    ¬ placeholderL <:+: (" \x7b ".toList ++ (body ++ (' ' :: T2))) := by
  intro h
  have h2 := sub_seq_elim (p := placeholderL) (by decide) (by decide) h
  rcases sub_append_cons (by decide) (by decide) h2 with h3 | h3
  · exact hb h3
  · exact not_sub_of_len hlen h3

theorem rbok_simple {body : List Char} (hb : ¬ placeholderL <:+: body) :
    RBOK (placeholderL ++ (" \x7b ".toList ++ (body ++ " \x7d".toList))) := by
  refine ⟨[], " \x7b ".toList ++ (body ++ " \x7d".toList), rfl, ?_, ?_, Or.inl rfl, ⟨_, rfl⟩⟩
  · intro h
    exact (by decide : placeholderL ≠ []) (List.infix_nil.mp h)
  · exact post_free hb (by decide)

theorem pre_at_free {frag : List Char} (hf : ¬ placeholderL <:+: frag) :
    ¬ placeholderL <:+: frag ++ " \x7b ".toList := by
  intro h
  have h2 : placeholderL <:+: frag ++ (" \x7b ".toList ++ []) := by simpa using h
  rcases sub_append_sep (by decide) (by decide) (by decide) h2 with h3 | h3
  · exact hf h3
  · exact (by decide : placeholderL ≠ []) (List.infix_nil.mp h3)

theorem rbok_at {frag body : List Char} (hf : ¬ placeholderL <:+: frag)
    (hb : ¬ placeholderL <:+: body) :
    RBOK (frag ++ " \x7b ".toList ++ placeholderL ++ " \x7b ".toList
      ++ body ++ " \x7d \x7d".toList) := by
  refine ⟨frag ++ " \x7b ".toList,
    " \x7b ".toList ++ (body ++ " \x7d \x7d".toList),
    by simp [List.append_assoc], pre_at_free hf, ?_,
    Or.inr ⟨frag ++ [' ', '\x7b'], by simp⟩, ⟨_, rfl⟩⟩
  exact post_free hb (by decide)

theorem dollar_not_hw {rb : List Char} :
    '$' ∉ '.' :: ("hw_".toList ++ hashJS rb) := by
  intro h
  rcases List.mem_cons.mp h with h1 | h1
  · exact absurd h1 (by decide)
  · rcases List.mem_append.mp h1 with h2 | h2
    · exact absurd h2 (by decide)
    · exact absurd (hashJS_mem_alphabet rb '$' h2) (by decide)

theorem hw_sel_len {k : List Char} :
    ('.' :: ("hw_".toList ++ hashJS k)).length < placeholderL.length := by
  rw [show placeholderL.length = 48 from by decide]
  simp [hashJS_length]

theorem selok_hw {k : List Char} : SelOK ('.' :: ("hw_".toList ++ hashJS k)) :=
  ⟨not_sub_of_len hw_sel_len, dollar_not_hw⟩

theorem isPseudoB_head {n : Node} (h : isPseudoB n = true) :
    ∃ f, declHead n = ':' :: f := by
  unfold isPseudoB at h
  cases hd : declHead n with
  | nil => rw [hd] at h; simp [List.isPrefixOf] at h
  | cons c f =>
    rw [hd] at h
    rcases List.cons_prefix_cons.mp (List.isPrefixOf_iff_prefix.mp h) with ⟨he, _⟩
    exact ⟨f, by rw [← he]⟩

theorem selok_pseudo {k frag s : List Char} (hfrag : frag <:+: s)
    (hfree : ¬ placeholderL <:+: s) (hd : '$' ∉ s)
    (hhead : ∃ f, frag = ':' :: f) :
    SelOK (('.' :: ("hw_".toList ++ hashJS k)) ++ frag) := by
  obtain ⟨f, rfl⟩ := hhead
  constructor
  · intro hsub
    rcases sub_append_cons (by decide) (by decide) hsub with h1 | h1
    · exact not_sub_of_len hw_sel_len h1
    · exact free_of_sub hfree
        ((List.suffix_cons ':' f).isInfix.trans hfrag) h1
  · intro hmem
    rcases List.mem_append.mp hmem with h1 | h1
    · exact dollar_not_hw h1
    · exact notmem_of_sub hd hfrag h1

theorem foldl_combine_mem {l : List CompiledCSS} {init : CompiledCSS}
    {r : List Char × List Char} :
    r ∈ (l.foldl combineCompiled init).rules →
      r ∈ init.rules ∨ ∃ x ∈ l, r ∈ x.rules := by
  induction l generalizing init with
  | nil => exact fun h => Or.inl h
  | cons x xs ih =>
    intro h
    rcases ih h with h1 | ⟨y, hy, h2⟩
    · rcases List.mem_append.mp h1 with h2 | h2
      · exact Or.inl h2
      · exact Or.inr ⟨x, List.mem_cons_self x xs, h2⟩
    · exact Or.inr ⟨y, List.mem_cons_of_mem x hy, h2⟩

theorem nodeInfix_nested {sel : List Char} {body : List Node} {s : List Char} :
    NodeInfix (Node.nested sel body) s ↔ sel <:+: s ∧ NodesInfix body s := by
  rw [NodeInfix]

theorem compile_rules_ok {s : List Char} {p : List Node} {fuel : Nat}
    (hparse : parseJS fuel s [] = some p)
    (hfree : ¬ placeholderL <:+: s) (hd : '$' ∉ s) :
    ∀ r ∈ (compile p).rules, RBOK r.1 ∧ SelOK r.2 := by
  have hinf : ∀ n ∈ p, NodeInfix n s := by
    intro n hn
    rcases parse_substr fuel s [] p hparse n hn with h | h
    · cases h
    · exact h
  intro r hr
  simp only [compile] at hr
  rcases foldl_combine_mem hr with h1 | ⟨x, hx, h2⟩
  · by_cases hcond : 0 < (p.filter isSimpleB).length
    · rw [if_pos hcond] at h1
      simp only [List.mem_singleton] at h1
      subst h1
      refine ⟨rbok_simple ?_, selok_hw⟩
      refine stringifyProperties_free (fun n hn => ?_) hfree
      exact hinf n (List.mem_of_mem_filter (List.mem_of_mem_filter hn))
    · rw [if_neg hcond] at h1
      cases h1
  · rcases List.mem_append.mp hx with hx1 | hx1
    · obtain ⟨n, hn, rfl⟩ := List.mem_map.mp hx1
      have hnp : n ∈ p := List.mem_of_mem_filter (List.mem_of_mem_filter hn)
      have hpse : isPseudoB n = true := List.of_mem_filter hn
      have hnst : isNestedB n = true :=
        List.of_mem_filter (List.mem_of_mem_filter hn)
      obtain ⟨ns, nb, rfl⟩ := isNestedB_eq hnst
      have hni := nodeInfix_nested.mp (hinf _ hnp)
      simp only [List.mem_singleton] at h2
      subst h2
      simp only [declHead, nodeBody]
      refine ⟨rbok_simple ?_, selok_pseudo hni.1 hfree hd
        (by simpa [declHead] using isPseudoB_head hpse)⟩
      exact stringifyProperties_free
        (fun m hm => nodesInfix_iff.mp hni.2 m hm) hfree
    · obtain ⟨n, hn, rfl⟩ := List.mem_map.mp hx1
      have hnp : n ∈ p := List.mem_of_mem_filter (List.mem_of_mem_filter hn)
      have hnst : isNestedB n = true :=
        List.of_mem_filter (List.mem_of_mem_filter hn)
      obtain ⟨ns, nb, rfl⟩ := isNestedB_eq hnst
      have hni := nodeInfix_nested.mp (hinf _ hnp)
      simp only [List.mem_singleton] at h2
      subst h2
      simp only [declHead, nodeBody]
      refine ⟨rbok_at (free_of_sub hfree hni.1) ?_, selok_hw⟩
      exact stringifyProperties_free
        (fun m hm => nodesInfix_iff.mp hni.2 m hm) hfree

/-! Serialization substitutes the selector list for the unique placeholder
occurrence of every accumulated rule body. -/

theorem subst_id {m b a rep : List Char} (h : '$' ∉ rep) :
    substDollar m b a rep = rep := by
  induction rep with
  | nil => rfl
  | cons c rest ih =>
    have hc : ¬(c = '$') := fun e => h (e ▸ List.mem_cons_self c rest)
    rw [substDollar.eq_def]
    simp only [if_neg hc]
    rw [ih (fun hm => h (List.mem_cons_of_mem c hm))]

theorem prefix_split {p a b : List Char} (h : p <+: a ++ b) :
    p <+: a ∨ a <+: p := by
  induction a generalizing p with
  | nil => exact Or.inr List.nil_prefix
  | cons x a2 ih =>
    cases p with
    | nil => exact Or.inl List.nil_prefix
    | cons q p2 =>
      rw [List.cons_append] at h
      rcases List.cons_prefix_cons.mp h with ⟨rfl, h2⟩
      rcases ih h2 with h3 | h3
      · exact Or.inl (List.cons_prefix_cons.mpr ⟨rfl, h3⟩)
      · exact Or.inr (List.cons_prefix_cons.mpr ⟨rfl, h3⟩)

theorem clean_no_match {pat pre : List Char} (hne : pat ≠ []) (hsp : ' ' ∉ pat)
    (hfree : ¬ pat <:+: pre)
    (hend : pre = [] ∨ ∃ pre0, pre = pre0 ++ [' ']) :
    ∀ k, k < pre.length → ∀ post2, pat.isPrefixOf (pre.drop k ++ post2) = false := by
  intro k hk post2
  by_contra hcon
  have hpref : pat <+: pre.drop k ++ post2 := by
    cases he : pat.isPrefixOf (pre.drop k ++ post2)
    · exact absurd he hcon
    · exact List.isPrefixOf_iff_prefix.mp he
  rcases prefix_split hpref with h1 | h1
  · exact hfree (h1.isInfix.trans (drop_sub k pre))
  · rcases hend with rfl | ⟨pre0, rfl⟩
    · simp at hk
    · have hk2 : k ≤ pre0.length := by
        simp only [List.length_append, List.length_singleton] at hk
        omega
      have hsp2 : ' ' ∈ (pre0 ++ [' ']).drop k := by
        rw [List.drop_append_of_le_length hk2]
        exact List.mem_append.mpr (Or.inr (List.mem_singleton.mpr rfl))
      exact hsp (h1.sublist.subset hsp2)

theorem firstMatch_cons_pos {pat s : List Char} (h : pat.isPrefixOf s = true) :
    firstMatchIdx pat s = some 0 := by
  cases s <;> simp [firstMatchIdx, h]

theorem firstMatch_skip {pat s2 : List Char} (hp : pat.isPrefixOf s2 = true) :
    ∀ pre : List Char,
      (∀ k, k < pre.length → pat.isPrefixOf (pre.drop k ++ s2) = false) →
      firstMatchIdx pat (pre ++ s2) = some pre.length := by
  intro pre
  induction pre with
  | nil => intro _; simpa using firstMatch_cons_pos hp
  | cons c pre2 ih =>
    intro hclean
    have h0 : pat.isPrefixOf (c :: (pre2 ++ s2)) = false := by
      have := hclean 0 (by simp)
      simpa using this
    rw [List.cons_append, firstMatchIdx, h0]
    have h2 := ih (fun k hk => by
      have := hclean (k + 1) (by simp; omega)
      simpa using this)
    rw [h2]
    simp

theorem replaceFirst_clean {pre post rep : List Char}
    (hfree : ¬ placeholderL <:+: pre)
    (hend : pre = [] ∨ ∃ pre0, pre = pre0 ++ [' '])
    (hdol : '$' ∉ rep) :
    replaceFirstJS (pre ++ (placeholderL ++ post)) placeholderL rep =
      pre ++ (rep ++ post) := by
  have hp : placeholderL.isPrefixOf (placeholderL ++ post) = true :=
    List.isPrefixOf_iff_prefix.mpr (List.prefix_append _ _)
  have hclean := clean_no_match (by decide) (by decide) hfree hend
  have hidx : firstMatchIdx placeholderL (pre ++ (placeholderL ++ post)) =
      some pre.length :=
    firstMatch_skip hp pre (fun k hk => hclean k hk _)
  rw [replaceFirstJS]
  simp only [hidx]
  have htake : (pre ++ (placeholderL ++ post)).take pre.length = pre :=
    List.take_left pre _
  have hdrop : (pre ++ (placeholderL ++ post)).drop
      (pre.length + placeholderL.length) = post := by
    rw [← List.append_assoc]
    exact List.drop_left' (by simp)
  rw [htake, hdrop, subst_id hdol, List.append_assoc]

theorem line_free {rb : List Char} {sels : List (List Char)} (hrb : RBOK rb)
    (hsels : ∀ sel ∈ sels, SelOK sel) :
    ¬ placeholderL <:+: replaceFirstJS rb placeholderL (joinJS ", ".toList sels) := by
  obtain ⟨pre, post, rfl, hpre, hpost, hend, post1, rfl⟩ := hrb
  have hrepfree : ¬ placeholderL <:+: joinJS ", ".toList sels :=
    join_not_sub (by decide) (by decide) (by decide) (fun x hx => (hsels x hx).1)
  have hrepdol : '$' ∉ joinJS ", ".toList sels := by
    intro hm
    rcases join_mem hm with h1 | ⟨x, hx, h2⟩
    · exact absurd h1 (by decide)
    · exact (hsels x hx).2 h2
  rw [replaceFirst_clean hpre hend hrepdol]
  intro hsub
  have hsub2 : placeholderL <:+: joinJS ", ".toList sels ++ (' ' :: post1) := by
    rcases hend with rfl | ⟨pre0, rfl⟩
    · simpa using hsub
    · rw [show (pre0 ++ [' ']) ++ (joinJS ", ".toList sels ++ (' ' :: post1)) =
          pre0 ++ (' ' :: (joinJS ", ".toList sels ++ (' ' :: post1))) from by simp] at hsub
      rcases sub_append_cons (by decide) (by decide) hsub with h1 | h1
      · exact absurd (h1.trans (List.prefix_append pre0 [' ']).isInfix) hpre
      · exact h1
  rcases sub_append_cons (by decide) (by decide) hsub2 with h1 | h1
  · exact hrepfree h1
  · exact hpost (h1.trans (List.suffix_cons ' ' post1).isInfix)

theorem serialize_free {sheet : Sheet} (hs : SheetOK sheet) :
    ¬ placeholderL <:+: stringifyStylesheet sheet := by
  rw [stringifyStylesheet]
  refine join_not_sub (by decide) (by decide) (by decide) ?_
  intro x hx
  obtain ⟨e, he, rfl⟩ := List.mem_map.mp hx
  exact line_free (hs e he).1 (hs e he).2

theorem addRule_inv {sheet : Sheet} {rb sel : List Char} (hs : SheetOK sheet)
    (hrb : RBOK rb) (hsel : SelOK sel) : SheetOK (addRule sheet rb sel) := by
  rw [addRule]
  cases hf : sheet.find? (fun e => e.1 == rb) with
  | none =>
    intro e he
    rcases List.mem_append.mp he with h | h
    · exact hs e h
    · have he2 : e = (rb, [sel]) := by simpa using h
      subst he2
      refine ⟨hrb, fun s2 hs2 => ?_⟩
      have hse : s2 = sel := by simpa using hs2
      subst hse
      exact hsel
  | some e0 =>
    intro e he
    obtain ⟨e1, he1, rfl⟩ := List.mem_map.mp he
    by_cases h1 : e1.1 = rb
    · rw [if_pos h1]
      refine ⟨(hs e1 he1).1, ?_⟩
      intro s2 hs2
      by_cases h2 : sel ∈ e1.2
      · rw [if_pos h2] at hs2
        exact (hs e1 he1).2 s2 hs2
      · rw [if_neg h2] at hs2
        rcases List.mem_append.mp hs2 with h3 | h3
        · exact (hs e1 he1).2 s2 h3
        · have hse : s2 = sel := by simpa using h3
          subst hse
          exact hsel
    · rw [if_neg h1]
      exact hs e1 he1

theorem foldl_addRule_inv {rules : List (List Char × List Char)} {sheet : Sheet}
    (hs : SheetOK sheet) (hr : ∀ r ∈ rules, RBOK r.1 ∧ SelOK r.2) :
    SheetOK (rules.foldl (fun sh r => addRule sh r.1 r.2) sheet) := by
  induction rules generalizing sheet with
  | nil => exact hs
  | cons r rs ih =>
    exact ih (addRule_inv hs (hr r (List.mem_cons_self r rs)).1
        (hr r (List.mem_cons_self r rs)).2)
      (fun r2 h2 => hr r2 (List.mem_cons_of_mem r h2))

theorem processStyle_inv {fuel : Nat} {sheet : Sheet} {s : List Char}
    (hs : SheetOK sheet) (hfree : ¬ placeholderL <:+: s) (hd : '$' ∉ s) :
    SheetOK (processStyle fuel sheet s) := by
  rw [processStyle]
  cases hp : parseJS fuel s [] with
  | none => exact hs
  | some p => exact foldl_addRule_inv hs (compile_rules_ok hp hfree hd)

theorem foldl_process_inv {fuel : Nat} :
    ∀ (styles : List (List Char)) (sheet : Sheet), SheetOK sheet →
      (∀ s ∈ styles, ¬ placeholderL <:+: s ∧ '$' ∉ s) →
      SheetOK (styles.foldl (processStyle fuel) sheet)
  | [], _, hs, _ => hs
  | s :: ss, sheet, hs, h =>
    foldl_process_inv ss _
      (processStyle_inv hs (h s (List.mem_cons_self s ss)).1
        (h s (List.mem_cons_self s ss)).2)
      (fun t ht => h t (List.mem_cons_of_mem s ht))

set_option maxRecDepth 1000000 in
/-- C7 counterexample: two concrete style strings whose serialized
stylesheet still contains the placeholder token. The first style contains
the placeholder literally (only the first occurrence in the rule body is
substituted); the second uses the pseudo-class fragment ":$&", whose "$&"
is expanded by the JS replace call back into the matched placeholder. -/
theorem C7_counterexample :
    placeholderL <:+:
        stringifyStylesheet (processStyle 5 [] ("color: ".toList ++ placeholderL)) ∧
      placeholderL <:+:
        stringifyStylesheet (processStyle 5 [] ":$& \x7b color: red \x7d".toList) := by
  decide

/-- C7 amended: for every sequence of style strings, none of which
contains the placeholder token as a substring nor the character "$"
(which the JS replace call treats as an escape), the placeholder never
appears in the serialized stylesheet: its only appearances are
intermediate and it is always substituted before serialization. -/
theorem C7_amended (styles : List (List Char)) (fuel : Nat)
    (h : ∀ s ∈ styles, ¬ placeholderL <:+: s ∧ '$' ∉ s) :
    ¬ placeholderL <:+:
      stringifyStylesheet (styles.foldl (processStyle fuel) []) :=
  serialize_free
    (foldl_process_inv styles [] (fun e he => absurd he (List.not_mem_nil e)) h)

set_option maxRecDepth 1000000 in
/-- Witness for C7: the amended statement applied to the single style
string "color: red". -/
theorem C7_amended_wit :
    (∀ s ∈ [("color: red".toList)], ¬ placeholderL <:+: s ∧ '$' ∉ s) ∧
      ¬ placeholderL <:+:
        stringifyStylesheet ([("color: red".toList)].foldl (processStyle 5) []) :=
  ⟨by decide, C7_amended _ 5 (by decide)⟩

/-! Fuel monotonicity and a full characterization of the parser on
brace-free input (claims C3 and C4). -/

theorem parse_fuel_mono : ∀ (f f2 : Nat) (text : List Char) (acc r : List Node),
    f ≤ f2 → parseJS f text acc = some r → parseJS f2 text acc = some r := by
  intro f
  induction f with
  | zero => intro f2 text acc r _ h; cases h
  | succ m ih =>
    intro f2 text acc r hle h
    obtain ⟨m2, rfl⟩ : ∃ m2, f2 = m2 + 1 := ⟨f2 - 1, by omega⟩
    have hm : m ≤ m2 := by omega
    rw [parseJS] at h
    rw [parseJS]
    by_cases ht : trimJS text = []
    · rw [if_pos ht] at h ⊢
      exact h
    · rw [if_neg ht] at h ⊢
      cases hst : searchTerm text with
      | none =>
        simp only [hst] at h ⊢
        exact h
      | some i =>
        simp only [hst] at h ⊢
        by_cases hsemi : text.getD i ' ' = ';'
        · rw [if_pos hsemi] at h ⊢
          exact ih _ _ _ _ hm h
        · rw [if_neg hsemi] at h ⊢
          cases hcl : indexOfChar '\x7d' text with
          | some j =>
            simp only [hcl] at h ⊢
            cases hrb : parseJS m ((text.take j).drop (i + 1)) [] with
            | none => rw [hrb] at h; cases h
            | some props =>
              rw [hrb] at h
              rw [ih _ _ _ _ hm hrb]
              exact ih _ _ _ _ hm h
          | none =>
            simp only [hcl] at h ⊢
            cases hrb : parseJS m ((text.take (text.length - 1)).drop (i + 1)) [] with
            | none => rw [hrb] at h; cases h
            | some props =>
              rw [hrb] at h
              rw [ih _ _ _ _ hm hrb]
              exact ih _ _ _ _ hm h

theorem searchTerm_some_lt {l : List Char} {i : Nat} (h : searchTerm l = some i) :
    i < l.length := by
  induction l generalizing i with
  | nil => cases h
  | cons c rest ih =>
    rw [searchTerm] at h
    by_cases hc : c = ';' ∨ c = '\x7b'
    · rw [if_pos hc] at h
      injection h with h1
      subst h1
      simp
    · rw [if_neg hc] at h
      cases hst : searchTerm rest with
      | none => rw [hst] at h; cases h
      | some j =>
        rw [hst] at h
        simp at h
        subst h
        simpa using ih hst

theorem searchTerm_take {l : List Char} {i : Nat} (h : searchTerm l = some i) :
    ∀ c ∈ l.take i, ¬(c = ';' ∨ c = '\x7b') := by
  induction l generalizing i with
  | nil => intro c hc; rw [List.take_nil] at hc; cases hc
  | cons a rest ih =>
    rw [searchTerm] at h
    by_cases ha : a = ';' ∨ a = '\x7b'
    · rw [if_pos ha] at h
      injection h with h1
      subst h1
      intro c hc
      simp at hc
    · rw [if_neg ha] at h
      cases hst : searchTerm rest with
      | none => rw [hst] at h; cases h
      | some j =>
        rw [hst] at h
        simp at h
        subst h
        intro c hc
        rcases List.mem_cons.mp (by simpa using hc) with rfl | hc2
        · exact ha
        · exact ih hst c hc2

theorem searchTerm_append_semi {seg : List Char}
    (h : ∀ c ∈ seg, ¬(c = ';' ∨ c = '\x7b')) (rest : List Char) :
    searchTerm (seg ++ ';' :: rest) = some seg.length := by
  induction seg with
  | nil => simp [searchTerm]
  | cons a s ih =>
    rw [List.cons_append, searchTerm,
      if_neg (h a (List.mem_cons_self a s)),
      ih (fun c hc => h c (List.mem_cons_of_mem a hc))]
    simp

theorem getD_append_len (a b : List Char) (c : Char) :
    (a ++ c :: b).getD a.length ' ' = c := by
  induction a with
  | nil => rfl
  | cons x a2 ih => simpa using ih

/-- The pieces of the `;`-split that the parser actually processes: all of
them, except a trailing remainder that trims to nothing (the recursion
returns early when the remaining text is all whitespace). -/
def liveSegs (segs : List (List Char)) : List (List Char) :=
  match segs.getLast? with
  | none => []
  | some lastSeg => if trimJS lastSeg = [] then segs.dropLast else segs

theorem liveSegs_single (x : List Char) :
    liveSegs [x] = if trimJS x = [] then [] else [x] := by
  unfold liveSegs
  simp

theorem liveSegs_cons {seg0 s : List Char} {ss : List (List Char)} :
    liveSegs (seg0 :: s :: ss) = seg0 :: liveSegs (s :: ss) := by
  unfold liveSegs
  rw [List.getLast?_cons_cons]
  cases hg : (s :: ss).getLast? with
  | none => simp [List.getLast?_eq_none_iff] at hg
  | some lastSeg => by_cases hts : trimJS lastSeg = [] <;> simp [hts]

theorem splitJS_join : ∀ (pieces : List (List Char)), pieces ≠ [] →
    (∀ x ∈ pieces, ':' ∉ x) → splitJS ':' (joinJS [':'] pieces) = pieces
  | [], h, _ => absurd rfl h
  | [x], _, hf => by
      rw [show joinJS [':'] [x] = x from rfl]
      exact splitJS_no_sep (hf x (List.mem_singleton.mpr rfl))
  | x :: y :: ys, _, hf => by
      rw [show joinJS [':'] (x :: y :: ys) = x ++ ':' :: joinJS [':'] (y :: ys) from by
        rw [show joinJS [':'] (x :: y :: ys) = x ++ [':'] ++ joinJS [':'] (y :: ys) from rfl]
        simp]
      rw [splitJS_append _ (hf x (List.mem_cons_self x (y :: ys)))]
      rw [splitJS_join (y :: ys) (by simp) (fun z hz => hf z (List.mem_cons_of_mem x hz))]

theorem parse_semi_step (text : List Char) (acc : List Node) (fuel i : Nat)
    (h1 : trimJS text ≠ []) (h2 : searchTerm text = some i)
    (h3 : text.getD i ' ' = ';') :
    parseJS (fuel + 1) text acc =
      parseJS fuel (text.drop (i + 1))
        (acc ++ [Node.decl (splitColonTrim (text.take i))]) := by
  rw [parseJS, if_neg h1]
  simp only [h2]
  rw [if_pos h3]

theorem parse_nobrace : ∀ (len : Nat) (text : List Char) (acc : List Node),
    text.length ≤ len → '\x7b' ∉ text →
    parseJS (text.length + 1) text acc =
      some (acc ++ (liveSegs (splitJS ';' text)).map
        (fun seg => Node.decl (splitColonTrim seg))) := by
  intro len
  induction len with
  | zero =>
    intro text acc hlen hb
    have ht : text = [] := List.eq_nil_of_length_eq_zero (Nat.le_zero.mp hlen)
    subst ht
    rw [show splitJS ';' ([] : List Char) = [[]] from rfl, liveSegs_single]
    rw [parseJS]
    simp [trimJS]
  | succ m ih =>
    intro text acc hlen hb
    by_cases ht : trimJS text = []
    · rw [parseJS, if_pos ht]
      have hsemi_not : (';' : Char) ∉ text := fun hm =>
        (trimJS_ne_nil hm (by decide)) ht
      rw [splitJS_no_sep hsemi_not, liveSegs_single, if_pos ht]
      simp
    · cases hst : searchTerm text with
      | none =>
        rw [parse_noterm text.length text acc ht hst]
        have hsemi_not : (';' : Char) ∉ text := fun hm =>
          (searchTerm_none_mem hst ';' hm) (Or.inl rfl)
        rw [splitJS_no_sep hsemi_not, liveSegs_single, if_neg ht]
        simp
      | some i =>
        have hlt : i < text.length := searchTerm_some_lt hst
        have hsemi : text.getD i ' ' = ';' := by
          rcases searchTerm_some_mem hst with h | h
          · exact h
          · exact absurd (by rw [← h]; exact getD_mem_of_lt hlt) hb
        rw [parse_semi_step text acc text.length i ht hst hsemi]
        have hdlen : (text.drop (i + 1)).length ≤ m := by
          rw [List.length_drop]
          omega
        have hdb : '\x7b' ∉ text.drop (i + 1) := fun hm =>
          hb (List.mem_of_mem_drop hm)
        have hrec := ih (text.drop (i + 1))
          (acc ++ [Node.decl (splitColonTrim (text.take i))]) hdlen hdb
        have hle : (text.drop (i + 1)).length + 1 ≤ text.length := by
          rw [List.length_drop]
          omega
        rw [parse_fuel_mono _ _ _ _ _ hle hrec]
        have hdecomp : text = text.take i ++ ';' :: text.drop (i + 1) := by
          conv_lhs => rw [← List.take_append_drop i text]
          congr 1
          rw [List.drop_eq_getElem_cons hlt]
          congr 1
          have h2 := hsemi
          rw [List.getD_eq_getElem?_getD, List.getElem?_eq_getElem hlt] at h2
          simpa using h2
        have hnot : (';' : Char) ∉ text.take i := fun hm =>
          (searchTerm_take hst ';' hm) (Or.inl rfl)
        have hsplit : splitJS ';' text =
            text.take i :: splitJS ';' (text.drop (i + 1)) := by
          conv_lhs => rw [hdecomp]
          exact splitJS_append _ hnot
        rw [hsplit]
        cases hss : splitJS ';' (text.drop (i + 1)) with
        | nil => exact absurd hss (splitJS_ne_nil _ _)
        | cons s ss =>
          rw [liveSegs_cons]
          simp

/-- C3 amended: parse never aborts because of a key: value segment that
does not split into exactly two trimmed non-empty tokens; it emits its
diagnostic (the non-throwing console.assert) and proceeds with a
recoverable best-effort result. Concretely: (1) on every brace-free input
text - whatever its segments look like - parse succeeds, returning every
";"-separated segment (except a trailing all-whitespace remainder) as the
segment split on every ":" with all parts trimmed; and (2) on any input
whose first terminator is a ";", the segment before it - well-formed or
not - is appended as its best-effort split and parsing continues on the
rest. -/
theorem C3_amended :
    (∀ (text : List Char) (acc : List Node), '\x7b' ∉ text →
        parseJS (text.length + 1) text acc =
          some (acc ++ (liveSegs (splitJS ';' text)).map
            (fun seg => Node.decl (splitColonTrim seg)))) ∧
      (∀ (text : List Char) (acc : List Node) (fuel i : Nat),
        trimJS text ≠ [] → searchTerm text = some i → text.getD i ' ' = ';' →
        parseJS (fuel + 1) text acc =
          parseJS fuel (text.drop (i + 1))
            (acc ++ [Node.decl (splitColonTrim (text.take i))])) :=
  ⟨fun text acc hb => parse_nobrace text.length text acc le_rfl hb,
    fun text acc fuel i h1 h2 h3 => parse_semi_step text acc fuel i h1 h2 h3⟩

set_option maxRecDepth 100000 in
/-- Witness for C3: both parts applied to the input "a; b: c", whose first
segment "a" does not split into two tokens; parse appends it as the
one-element array and continues, and the whole brace-free text parses to
a recoverable result. -/
theorem C3_amended_wit :
    ('\x7b' ∉ "a; b: c".toList ∧
        parseJS ("a; b: c".toList.length + 1) "a; b: c".toList [] =
          some ([] ++ (liveSegs (splitJS ';' "a; b: c".toList)).map
            (fun seg => Node.decl (splitColonTrim seg)))) ∧
      (trimJS "a; b: c".toList ≠ [] ∧ searchTerm "a; b: c".toList = some 1 ∧
          "a; b: c".toList.getD 1 ' ' = ';' ∧
        parseJS (6 + 1) "a; b: c".toList [] =
          parseJS 6 ("a; b: c".toList.drop 2)
            ([] ++ [Node.decl (splitColonTrim ("a; b: c".toList.take 1))])) :=
  ⟨⟨by decide, C3_amended.1 "a; b: c".toList [] (by decide)⟩,
    ⟨by decide, by decide, by decide,
      C3_amended.2 "a; b: c".toList [] 6 1 (by decide) (by decide) (by decide)⟩⟩

/-- C4 amended: parse splits every declaration segment on every ":" (not
only the first) and trims each part, in both positions a declaration
segment can occur: a segment built from any two or more colon-free pieces
joined by ":" parses, as the terminator-free remainder, to the single
declaration holding all the trimmed pieces, and, when ";"-terminated, to
that declaration followed by the parse of the rest; a value containing
":" is therefore split further instead of being kept intact. -/
theorem C4_amended (pieces : List (List Char)) (rest : List Char)
    (acc : List Node) (fuel : Nat) (hn : 2 ≤ pieces.length)
    (hfree : ∀ x ∈ pieces, ':' ∉ x ∧ ';' ∉ x ∧ '\x7b' ∉ x) :
    parseJS (fuel + 1) (joinJS [':'] pieces) acc =
        some (acc ++ [Node.decl (pieces.map trimJS)]) ∧
      parseJS (fuel + 1) (joinJS [':'] pieces ++ ';' :: rest) acc =
        parseJS fuel rest (acc ++ [Node.decl (pieces.map trimJS)]) := by
  have hpne : pieces ≠ [] := by
    intro e
    rw [e] at hn
    simp at hn
  have hsplit : splitJS ':' (joinJS [':'] pieces) = pieces :=
    splitJS_join pieces hpne (fun x hx => (hfree x hx).1)
  have hcolon : (':' : Char) ∈ joinJS [':'] pieces := by
    cases pieces with
    | nil => simp at hn
    | cons x ps =>
      cases ps with
      | nil => simp at hn
      | cons y ys =>
        rw [show joinJS [':'] (x :: y :: ys) =
          x ++ [':'] ++ joinJS [':'] (y :: ys) from rfl]
        simp
  have hterm : ∀ c ∈ joinJS [':'] pieces, ¬(c = ';' ∨ c = '\x7b') := by
    intro c hc hor
    rcases join_mem hc with h1 | ⟨x, hx, h2⟩
    · have hce : c = ':' := by simpa using h1
      subst hce
      rcases hor with h | h <;> exact absurd h (by decide)
    · rcases hor with rfl | rfl
      · exact (hfree x hx).2.1 h2
      · exact (hfree x hx).2.2 h2
  have ht1 : trimJS (joinJS [':'] pieces) ≠ [] := trimJS_ne_nil hcolon (by decide)
  have hsct : splitColonTrim (joinJS [':'] pieces) = pieces.map trimJS := by
    rw [splitColonTrim, hsplit]
  constructor
  · rw [parse_noterm fuel _ acc ht1 (searchTerm_eq_none hterm), hsct]
  · have hmem2 : (';' : Char) ∈ joinJS [':'] pieces ++ ';' :: rest := by simp
    have ht2 : trimJS (joinJS [':'] pieces ++ ';' :: rest) ≠ [] :=
      trimJS_ne_nil hmem2 (by decide)
    have hst2 : searchTerm (joinJS [':'] pieces ++ ';' :: rest) =
        some (joinJS [':'] pieces).length :=
      searchTerm_append_semi hterm rest
    have hgd : (joinJS [':'] pieces ++ ';' :: rest).getD
        (joinJS [':'] pieces).length ' ' = ';' :=
      getD_append_len _ _ _
    rw [parse_semi_step _ acc fuel _ ht2 hst2 hgd]
    have hdrop : (joinJS [':'] pieces ++ ';' :: rest).drop
        ((joinJS [':'] pieces).length + 1) = rest := by
      rw [show joinJS [':'] pieces ++ ';' :: rest =
        (joinJS [':'] pieces ++ [';']) ++ rest from by simp]
      exact List.drop_left' (by simp)
    rw [hdrop, List.take_left, hsct]

set_option maxRecDepth 100000 in
/-- Witness for C4: both parts applied to the three colon-free pieces of
"background: url(http://x)", standalone and followed by "; color: red". -/
theorem C4_amended_wit :
    (2 ≤ (["background".toList, " url(http".toList, "//x)".toList] :
          List (List Char)).length ∧
        ∀ x ∈ (["background".toList, " url(http".toList, "//x)".toList] :
          List (List Char)), ':' ∉ x ∧ ';' ∉ x ∧ '\x7b' ∉ x) ∧
      parseJS (2 + 1)
          (joinJS [':'] ["background".toList, " url(http".toList, "//x)".toList]) [] =
        some [Node.decl ["background".toList, "url(http".toList, "//x)".toList]] ∧
      parseJS (2 + 1)
          (joinJS [':'] ["background".toList, " url(http".toList, "//x)".toList]
            ++ ';' :: " color: red".toList) [] =
        parseJS 2 " color: red".toList
          [Node.decl ["background".toList, "url(http".toList, "//x)".toList]] :=
  ⟨⟨by decide, by decide⟩, by
    have h := C4_amended ["background".toList, " url(http".toList, "//x)".toList]
      " color: red".toList [] 2 (by decide) (by decide)
    constructor
    · rw [h.1]
      decide
    · rw [h.2]
      decide⟩
